import Mathlib

/-!
Verification of the MacShorty link-resolution and merge engine.

The definitions below are a shallow embedding of the TypeScript sources:
  - `src/services/storage.ts` (persistent store operations),
  - the initialization sequence `initApp` of the application component
    (the variant with modes BOOTSTRAP / DASHBOARD / REDIRECT_PROCESS /
    NOT_FOUND, i.e. the second file of `src/unnamed/part_001`; the merge
    and sort logic is byte-identical to `src/App.tsx` lines 52-64),
  - the in-session view refresh `refreshLinks` (`src/App.tsx` lines 107-119).

Modelling conventions:
  - `localStorage` is modelled by explicit state passing: the decoded
    link collection (a `List ShortLink`) is an argument and a result.
  - `JSON.parse` (which can throw) is modelled as a function into `Option`;
    the raw persisted cell is an `Option String` (absent key = `none`);
    the empty string is falsy in JavaScript, hence treated separately.
  - `JavaScript Map` (insertion-ordered, `set` keeps the position of an
    existing key) is modelled by an insertion-ordered list with `mapSet`.
  - `Array.prototype.sort` with comparator `(a, b) => b.createdAt - a.createdAt`
    is a stable descending sort (stability is mandated since ES2019); it is
    modelled by the stable insertion sort `sortLinks`.
  - `decodeURIComponent` (which throws `URIError` on a malformed escape) is
    an arbitrary parameter `decode : String → Option String` in the theorems;
    the concrete instance `pctDecode` models it on fragments whose escapes
    denote ASCII bytes and is used for concrete evaluations.
-/

namespace MacShorty

/-- `ShortLink` from `src/unnamed/part_000` (types): id, slug, originalUrl,
optional description, createdAt (epoch millis), clicks, optional tags. -/
structure ShortLink where
  id : String
  slug : String
  originalUrl : String
  description : Option String
  createdAt : Int
  clicks : Nat
  tags : Option (List String)
deriving DecidableEq, Repr

/-- `AppSettings`: both fields optional (the fields read by
`SettingsModal.tsx` and the app component). The empty JavaScript object
`{}` is the value with every field absent. -/
structure AppSettings where
  customBaseUrl : Option String
  googleAnalyticsId : Option String
deriving DecidableEq, Repr

/-- The empty settings object `{}`. -/
def emptySettings : AppSettings := { customBaseUrl := none, googleAnalyticsId := none }

/-- `getLinks` (`src/services/storage.ts` lines 6-14):
`stored ? JSON.parse(stored) : []` inside try/catch returning `[]`.
`parse` models `JSON.parse` typed at `ShortLink[]`; `none` is a thrown
`SyntaxError`. An absent key (`none`) and the empty string (falsy) both
yield `[]` without parsing. -/
def getLinks (parse : String → Option (List ShortLink)) (stored : Option String) :
    List ShortLink :=
  match stored with
  | none => []
  | some s => if s = "" then [] else (parse s).getD []

/-- `getSettings` (`src/services/storage.ts` lines 48-55): same shape as
`getLinks`, defaulting to the empty settings object. -/
def getSettings (parse : String → Option AppSettings) (stored : Option String) :
    AppSettings :=
  match stored with
  | none => emptySettings
  | some s => if s = "" then emptySettings else (parse s).getD emptySettings

/-- `saveLink` (`src/services/storage.ts` lines 16-27): find the index of an
existing record with the same id; replace it in place, otherwise `unshift`
(prepend). The argument `links` is the decoded current store contents. -/
def saveLink (links : List ShortLink) (link : ShortLink) : List ShortLink :=
  match links.findIdx? (fun l => l.id == link.id) with
  | some i => links.set i link
  | none => link :: links

/-- `deleteLink` (`src/services/storage.ts` lines 29-32): filter out the id. -/
def deleteLink (links : List ShortLink) (i : String) : List ShortLink :=
  links.filter (fun l => l.id ≠ i)

/-- `incrementClicks` (`src/services/storage.ts` lines 34-41): find the
record, bump its `clicks` by 1 and write it back through `saveLink`;
no-op when the id is absent. -/
def incrementClicks (links : List ShortLink) (i : String) : List ShortLink :=
  match links.find? (fun l => l.id == i) with
  | some link => saveLink links { link with clicks := link.clicks + 1 }
  | none => links

/-- `checkSlugExists` (`src/services/storage.ts` lines 43-46): a record
with the slug and a different id exists; with no exclusion (`undefined`)
the id comparison `l.id !== excludeId` is always true. -/
def checkSlugExists (links : List ShortLink) (slug : String) (excludeId : Option String) :
    Bool :=
  match excludeId with
  | none => links.any (fun l => l.slug == slug)
  | some e => links.any (fun l => l.slug == slug && l.id != e)

/-- One `linkMap.set(l.id, l)` step on a JavaScript `Map` in insertion
order: an existing key keeps its position and gets the new value, a new
key is appended. -/
def mapSet (m : List ShortLink) (l : ShortLink) : List ShortLink :=
  if m.any (fun x => x.id == l.id) then
    m.map (fun x => if x.id == l.id then l else x)
  else
    m ++ [l]

/-- `forEach(l => linkMap.set(l.id, l))` over a list of records. -/
def insertAll (m : List ShortLink) (ls : List ShortLink) : List ShortLink :=
  ls.foldl mapSet m

/-- The id-keyed mapping built by the merge (`src/App.tsx` lines 52-55):
baseline records inserted first, local records second (local wins). -/
def mapList (B L : List ShortLink) : List ShortLink :=
  insertAll (insertAll [] B) L

/-- Stable insertion step for the descending-`createdAt` sort: `x` is
placed before the first element that is not strictly newer, so elements
with equal `createdAt` keep their original relative order. -/
def ordInsert (x : ShortLink) : List ShortLink → List ShortLink
  | [] => [x]
  | y :: ys => if x.createdAt < y.createdAt then y :: ordInsert x ys else x :: y :: ys

/-- `mergedLinks.sort((a, b) => b.createdAt - a.createdAt)` (`src/App.tsx`
line 64): stable sort, newest first. -/
def sortLinks (ls : List ShortLink) : List ShortLink :=
  ls.foldr ordInsert []

/-- `merge(B, L)` (`src/App.tsx` lines 52-64): id-keyed mapping, baseline
first, local overwriting, then the values sorted newest-first. -/
def mergeLinks (B L : List ShortLink) : List ShortLink :=
  sortLinks (mapList B L)

/-- The ids of a record sequence. -/
def ids (ls : List ShortLink) : List String :=
  ls.map (fun l => l.id)

/-- The last record with the given id in a sequence (the value a
JavaScript `Map` holds after inserting the whole sequence). -/
def lastWith (i : String) (ls : List ShortLink) : Option ShortLink :=
  (ls.filter (fun l => l.id == i)).getLast?

/-- The bootstrap modes of the application component (second file of
`src/unnamed/part_001`). -/
inductive AppMode where
  | BOOTSTRAP
  | DASHBOARD
  | REDIRECT_PROCESS
  | NOT_FOUND
deriving DecidableEq, Repr

/-- The merged snapshot computed by `initApp` before routing: with a
fetched baseline the full merge, otherwise (fetch failed or not ok) the
local store alone; the sort runs in both cases. -/
def mergedView (store : List ShortLink) (baseline : Option (List ShortLink)) :
    List ShortLink :=
  match baseline with
  | some staticLinks => mergeLinks staticLinks store
  | none => sortLinks store

/-- The observable outcome of one `initApp` run: final mode, the
`redirectData` state (target, slug), the merged view passed to
`setLinks`, and the persistent store after side effects. -/
structure InitResult where
  mode : AppMode
  redirectData : Option (String × String)
  links : List ShortLink
  store : List ShortLink
deriving Repr

/-- The `initApp` routing sequence (second file of `src/unnamed/part_001`,
lines 297-380 of the part): merge, sort, publish the snapshot, then read
the fragment. Empty fragment → DASHBOARD. Otherwise decode the fragment;
a decode failure is a thrown `URIError` that rejects the async function,
leaving the mode at its initial value BOOTSTRAP (the snapshot was already
published). A decoded fragment is resolved by first slug match; a match
enters REDIRECT_PROCESS and bumps the clicks of the matched id in the
store; no match enters NOT_FOUND. -/
def initApp (decode : String → Option String) (store : List ShortLink)
    (baseline : Option (List ShortLink)) (rawHash : String) : InitResult :=
  if rawHash = "" then
    { mode := .DASHBOARD, redirectData := none,
      links := mergedView store baseline, store := store }
  else
    match decode rawHash with
    | none =>
      { mode := .BOOTSTRAP, redirectData := none,
        links := mergedView store baseline, store := store }
    | some hash =>
      match (mergedView store baseline).find? (fun l => l.slug == hash) with
      | some m =>
        { mode := .REDIRECT_PROCESS, redirectData := some (m.originalUrl, m.slug),
          links := mergedView store baseline, store := incrementClicks store m.id }
      | none =>
        { mode := .NOT_FOUND, redirectData := none,
          links := mergedView store baseline, store := store }

/-- `refreshLinks` (`src/App.tsx` lines 107-119): id-keyed mapping of the
previous view followed by the current local store, values sorted
newest-first. -/
def refreshLinks (prev localLinks : List ShortLink) : List ShortLink :=
  sortLinks (insertAll (insertAll [] prev) localLinks)

/-- Hexadecimal digit value, as `decodeURIComponent` accepts it. -/
def hexVal (c : Char) : Option Nat :=
  if '0' ≤ c ∧ c ≤ '9' then some (c.toNat - 48)
  else if 'A' ≤ c ∧ c ≤ 'F' then some (c.toNat - 55)
  else if 'a' ≤ c ∧ c ≤ 'f' then some (c.toNat - 87)
  else none

/-- Percent-decoding of a character list, restricted to escapes denoting
ASCII bytes. A `%` not followed by two hexadecimal digits is the
`URIError` case, modelled as `none`. -/
def pctDecodeChars : List Char → Option (List Char)
  | [] => some []
  | '%' :: c1 :: c2 :: rest =>
    match hexVal c1, hexVal c2 with
    | some h, some lo =>
      if 16 * h + lo < 128 then
        (pctDecodeChars rest).map (fun cs => Char.ofNat (16 * h + lo) :: cs)
      else none
    | _, _ => none
  | '%' :: _ => none
  | c :: rest => (pctDecodeChars rest).map (fun cs => c :: cs)

/-- `decodeURIComponent` on fragments whose escapes denote ASCII bytes;
`none` models a thrown `URIError`. -/
def pctDecode (s : String) : Option String :=
  (pctDecodeChars s.toList).map (fun cs => String.mk cs)

/-! ### Basic lemmas about the id-keyed mapping -/

theorem ids_map_replace (m : List ShortLink) (l : ShortLink) :
    ids (m.map (fun x => if x.id == l.id then l else x)) = ids m := by
  unfold ids
  rw [List.map_map]
  apply List.map_congr_left
  intro a _
  by_cases h : a.id = l.id
  · simp [Function.comp, h]
  · simp [Function.comp, h]

theorem ids_mapSet (m : List ShortLink) (l : ShortLink) :
    ids (mapSet m l) =
      if m.any (fun x => x.id == l.id) then ids m else ids m ++ [l.id] := by
  unfold mapSet
  split
  · exact ids_map_replace m l
  · unfold ids
    rw [List.map_append]
    rfl

theorem mem_ids_mapSet (m : List ShortLink) (l : ShortLink) (i : String) :
    i ∈ ids (mapSet m l) ↔ i ∈ ids m ∨ i = l.id := by
  rw [ids_mapSet]
  split
  case isTrue h =>
    rcases List.any_eq_true.1 h with ⟨x, hx, hxl⟩
    have hxl' : x.id = l.id := by simpa using hxl
    constructor
    · exact Or.inl
    · rintro (hm | rfl)
      · exact hm
      · exact hxl' ▸ List.mem_map.2 ⟨x, hx, rfl⟩
  case isFalse h =>
    simp [ids]

theorem mem_ids_insertAll (L : List ShortLink) :
    ∀ (m : List ShortLink) (i : String),
      i ∈ ids (insertAll m L) ↔ i ∈ ids m ∨ i ∈ ids L := by
  induction L with
  | nil => intro m i; simp [insertAll, ids]
  | cons l ls ih =>
    intro m i
    have h1 : insertAll m (l :: ls) = insertAll (mapSet m l) ls := rfl
    have h2 : ids (l :: ls) = l.id :: ids ls := rfl
    rw [h1, ih, mem_ids_mapSet, h2, List.mem_cons]
    tauto

theorem nodup_ids_mapSet (m : List ShortLink) (l : ShortLink)
    (h : (ids m).Nodup) : (ids (mapSet m l)).Nodup := by
  rw [ids_mapSet]
  split
  · exact h
  case isFalse hany =>
    have hany' : m.any (fun x => x.id == l.id) = false := by
      simpa using hany
    have hnot : l.id ∉ ids m := by
      intro hmem
      rcases List.mem_map.1 hmem with ⟨x, hx, hxid⟩
      have hfx := List.any_eq_false.1 hany' x hx
      simp [hxid] at hfx
    rw [List.nodup_append]
    refine ⟨h, List.nodup_singleton _, ?_⟩
    intro x hx hx'
    have : x = l.id := by simpa using hx'
    exact hnot (this ▸ hx)

theorem nodup_ids_insertAll (L : List ShortLink) :
    ∀ (m : List ShortLink), (ids m).Nodup → (ids (insertAll m L)).Nodup := by
  induction L with
  | nil => intro m h; exact h
  | cons l ls ih =>
    intro m h
    exact ih (mapSet m l) (nodup_ids_mapSet m l h)

theorem nodup_ids_mapList (B L : List ShortLink) : (ids (mapList B L)).Nodup := by
  unfold mapList
  exact nodup_ids_insertAll L _ (nodup_ids_insertAll B [] (by simp [ids]))

theorem mem_ids_mapList (B L : List ShortLink) (i : String) :
    i ∈ ids (mapList B L) ↔ i ∈ ids B ∨ i ∈ ids L := by
  unfold mapList
  rw [mem_ids_insertAll, mem_ids_insertAll]
  simp [ids]

/-! ### `find?` characterization of the id-keyed mapping -/

theorem find?_map_replace_ne (m : List ShortLink) (l : ShortLink) {i : String}
    (h : i ≠ l.id) :
    (m.map (fun x => if x.id == l.id then l else x)).find? (fun x => x.id == i) =
      m.find? (fun x => x.id == i) := by
  induction m with
  | nil => rfl
  | cons a m ih =>
    simp only [List.map_cons, List.find?_cons]
    by_cases ha : a.id = l.id
    · rw [if_pos (by simpa using ha)]
      have h2 : (l.id == i) = false := by
        simp only [beq_eq_false_iff_ne]
        exact fun e => h e.symm
      have h3 : (a.id == i) = false := by
        simp only [beq_eq_false_iff_ne]
        exact fun e => h (e.symm.trans ha)
      rw [h2, h3]
      exact ih
    · rw [if_neg (by simpa using ha)]
      cases hai : (a.id == i) with
      | true => rfl
      | false => exact ih

theorem find?_map_replace_eq (m : List ShortLink) (l : ShortLink)
    (h : m.any (fun x => x.id == l.id) = true) :
    (m.map (fun x => if x.id == l.id then l else x)).find? (fun x => x.id == l.id) =
      some l := by
  induction m with
  | nil => simp at h
  | cons a m ih =>
    simp only [List.map_cons, List.find?_cons]
    by_cases ha : a.id = l.id
    · rw [if_pos (by simpa using ha)]
      have h2 : (l.id == l.id) = true := by simp
      rw [h2]
    · rw [if_neg (by simpa using ha)]
      have h1 : (a.id == l.id) = false := by simpa using ha
      rw [h1]
      refine ih ?_
      rcases List.any_eq_true.1 h with ⟨x, hx, hxl⟩
      rcases List.mem_cons.1 hx with rfl | hxm
      · rw [h1] at hxl
        cases hxl
      · exact List.any_eq_true.2 ⟨x, hxm, hxl⟩

theorem find?_mapSet (m : List ShortLink) (l : ShortLink) (i : String) :
    (mapSet m l).find? (fun x => x.id == i) =
      if i = l.id then some l else m.find? (fun x => x.id == i) := by
  unfold mapSet
  split
  case isTrue hany =>
    by_cases hi : i = l.id
    · subst hi
      rw [if_pos rfl]
      exact find?_map_replace_eq m l hany
    · rw [if_neg hi]
      exact find?_map_replace_ne m l hi
  case isFalse hany =>
    have hany' : m.any (fun x => x.id == l.id) = false := by simpa using hany
    rw [List.find?_append]
    by_cases hi : i = l.id
    · subst hi
      rw [if_pos rfl]
      have hnone : m.find? (fun x => x.id == l.id) = none := by
        rw [List.find?_eq_none]
        intro x hx
        simpa using List.any_eq_false.1 hany' x hx
      rw [hnone, Option.none_or]
      simp [List.find?_cons]
    · rw [if_neg hi]
      have h2 : ([l].find? (fun x => x.id == i)) = none := by
        have hli : (l.id == i) = false := by
          simp only [beq_eq_false_iff_ne]
          exact fun e => hi e.symm
        simp [List.find?_cons, hli]
      rw [h2, Option.or_none]

theorem lastWith_cons_eq {i : String} {l : ShortLink} {ls : List ShortLink}
    (h : l.id = i) : lastWith i (l :: ls) = (lastWith i ls).or (some l) := by
  unfold lastWith
  rw [List.filter_cons, if_pos (by simpa using h)]
  cases hf : ls.filter (fun x => x.id == i) with
  | nil => simp [hf]
  | cons a t =>
    rw [List.getLast?_cons_cons]
    cases hg : (a :: t).getLast? with
    | none => exact absurd (List.getLast?_eq_none_iff.1 hg) (by simp)
    | some v => rfl

theorem lastWith_cons_ne {i : String} {l : ShortLink} {ls : List ShortLink}
    (h : l.id ≠ i) : lastWith i (l :: ls) = lastWith i ls := by
  unfold lastWith
  rw [List.filter_cons, if_neg (by simpa using h)]

theorem find?_insertAll (L : List ShortLink) :
    ∀ (m : List ShortLink) (i : String),
      (insertAll m L).find? (fun x => x.id == i) =
        (lastWith i L).or (m.find? (fun x => x.id == i)) := by
  induction L with
  | nil =>
    intro m i
    show m.find? (fun x => x.id == i) = (none : Option ShortLink).or _
    rw [Option.none_or]
  | cons l ls ih =>
    intro m i
    have h1 : insertAll m (l :: ls) = insertAll (mapSet m l) ls := rfl
    rw [h1, ih, find?_mapSet]
    by_cases h : l.id = i
    · rw [lastWith_cons_eq h, if_pos h.symm]
      cases lastWith i ls <;> rfl
    · rw [lastWith_cons_ne h, if_neg (fun e => h e.symm)]

theorem find?_mapList (B L : List ShortLink) (i : String) :
    (mapList B L).find? (fun x => x.id == i) = (lastWith i L).or (lastWith i B) := by
  unfold mapList
  rw [find?_insertAll L, find?_insertAll B]
  have h0 : ([] : List ShortLink).find? (fun x => x.id == i) = none := rfl
  rw [h0, Option.or_none]

/-! ### The stable descending sort -/

theorem perm_ordInsert (x : ShortLink) (ys : List ShortLink) :
    (ordInsert x ys).Perm (x :: ys) := by
  induction ys with
  | nil => exact List.Perm.refl _
  | cons y ys ih =>
    unfold ordInsert
    split
    · exact (ih.cons y).trans (List.Perm.swap x y ys)
    · exact List.Perm.refl _

theorem perm_sortLinks (ls : List ShortLink) : (sortLinks ls).Perm ls := by
  induction ls with
  | nil => exact List.Perm.refl _
  | cons a ls ih =>
    have h1 : sortLinks (a :: ls) = ordInsert a (sortLinks ls) := rfl
    rw [h1]
    exact (perm_ordInsert a (sortLinks ls)).trans (ih.cons a)

theorem sorted_ordInsert (x : ShortLink) (ys : List ShortLink)
    (h : ys.Pairwise (fun a b => b.createdAt ≤ a.createdAt)) :
    (ordInsert x ys).Pairwise (fun a b => b.createdAt ≤ a.createdAt) := by
  induction ys with
  | nil => exact List.pairwise_singleton _ _
  | cons y ys ih =>
    rcases List.pairwise_cons.1 h with ⟨hy, hys⟩
    unfold ordInsert
    split
    case isTrue hlt =>
      refine List.pairwise_cons.2 ⟨?_, ih hys⟩
      intro z hz
      rcases List.mem_cons.1 ((perm_ordInsert x ys).mem_iff.1 hz) with rfl | hzys
      · exact le_of_lt hlt
      · exact hy z hzys
    case isFalse hlt =>
      refine List.pairwise_cons.2 ⟨?_, h⟩
      intro z hz
      rcases List.mem_cons.1 hz with rfl | hzys
      · exact le_of_not_lt hlt
      · exact le_trans (hy z hzys) (le_of_not_lt hlt)

theorem sorted_sortLinks (ls : List ShortLink) :
    (sortLinks ls).Pairwise (fun a b => b.createdAt ≤ a.createdAt) := by
  induction ls with
  | nil => exact List.Pairwise.nil
  | cons a ls ih =>
    have h1 : sortLinks (a :: ls) = ordInsert a (sortLinks ls) := rfl
    rw [h1]
    exact sorted_ordInsert a (sortLinks ls) ih

theorem filter_ordInsert (t : Int) (x : ShortLink) (ys : List ShortLink) :
    (ordInsert x ys).filter (fun l => l.createdAt == t) =
      (x :: ys).filter (fun l => l.createdAt == t) := by
  induction ys with
  | nil => rfl
  | cons y ys ih =>
    unfold ordInsert
    split
    case isTrue hlt =>
      by_cases hx : x.createdAt = t
      · have hy : ¬y.createdAt = t := by
          intro e
          rw [hx, e] at hlt
          exact lt_irrefl t hlt
        simp [List.filter_cons, ih, hx, hy]
      · simp [List.filter_cons, ih, hx]
    case isFalse hlt => rfl

theorem filter_sortLinks (t : Int) (ls : List ShortLink) :
    (sortLinks ls).filter (fun l => l.createdAt == t) =
      ls.filter (fun l => l.createdAt == t) := by
  induction ls with
  | nil => rfl
  | cons a ls ih =>
    have h1 : sortLinks (a :: ls) = ordInsert a (sortLinks ls) := rfl
    rw [h1, filter_ordInsert, List.filter_cons, List.filter_cons, ih]

theorem sortLinks_eq_of_sorted (ls : List ShortLink)
    (h : ls.Pairwise (fun a b => b.createdAt ≤ a.createdAt)) : sortLinks ls = ls := by
  induction ls with
  | nil => rfl
  | cons a ls ih =>
    rcases List.pairwise_cons.1 h with ⟨ha, hls⟩
    have h1 : sortLinks (a :: ls) = ordInsert a (sortLinks ls) := rfl
    rw [h1, ih hls]
    cases ls with
    | nil => rfl
    | cons y ys =>
      unfold ordInsert
      rw [if_neg (not_lt_of_le (ha y (List.mem_cons_self y ys)))]

/-! ### Uniqueness of ids and `find?` under permutation -/

theorem find?_eq_self_of_nodup :
    ∀ {ls : List ShortLink} {x : ShortLink}, (ids ls).Nodup → x ∈ ls →
      ls.find? (fun l => l.id == x.id) = some x := by
  intro ls
  induction ls with
  | nil => intro x _ hx; exact absurd hx (List.not_mem_nil x)
  | cons a ls ih =>
    intro x h hx
    have h' : a.id ∉ ids ls ∧ (ids ls).Nodup := by
      have : ids (a :: ls) = a.id :: ids ls := rfl
      rw [this] at h
      exact List.nodup_cons.1 h
    rcases List.mem_cons.1 hx with rfl | hxl
    · rw [List.find?_cons]
      have : (x.id == x.id) = true := by simp
      rw [this]
    · rw [List.find?_cons]
      have hne : (a.id == x.id) = false := by
        simp only [beq_eq_false_iff_ne]
        intro e
        exact h'.1 (e ▸ List.mem_map.2 ⟨x, hxl, rfl⟩)
      rw [hne]
      exact ih h'.2 hxl

theorem find?_perm_of_nodup {ls ls' : List ShortLink} (hp : ls.Perm ls')
    (h : (ids ls).Nodup) (i : String) :
    ls.find? (fun l => l.id == i) = ls'.find? (fun l => l.id == i) := by
  cases hf : ls.find? (fun l => l.id == i) with
  | none =>
    have hnone := List.find?_eq_none.1 hf
    exact (List.find?_eq_none.2 fun x hx => hnone x (hp.mem_iff.2 hx)).symm
  | some a =>
    have ha : a ∈ ls' := hp.mem_iff.1 (List.mem_of_find?_eq_some hf)
    have hai : a.id = i := by simpa using List.find?_some hf
    have h' : (ids ls').Nodup := by
      have hm : (ids ls).Perm (ids ls') := by
        show (ls.map (fun l => l.id)).Perm (ls'.map (fun l => l.id))
        exact hp.map (fun l => l.id)
      exact hm.nodup_iff.1 h
    rw [← hai]
    exact (find?_eq_self_of_nodup h' ha).symm

theorem perm_ids_merge (B L : List ShortLink) :
    (ids (mergeLinks B L)).Perm (ids (mapList B L)) := by
  show ((sortLinks (mapList B L)).map (fun l => l.id)).Perm
    ((mapList B L).map (fun l => l.id))
  exact (perm_sortLinks (mapList B L)).map (fun l => l.id)

theorem nodup_ids_merge (B L : List ShortLink) : (ids (mergeLinks B L)).Nodup :=
  (perm_ids_merge B L).nodup_iff.2 (nodup_ids_mapList B L)

theorem mem_ids_merge (B L : List ShortLink) (i : String) :
    i ∈ ids (mergeLinks B L) ↔ i ∈ ids B ∨ i ∈ ids L := by
  rw [(perm_ids_merge B L).mem_iff]
  exact mem_ids_mapList B L i

theorem find?_merge (B L : List ShortLink) (i : String) :
    (mergeLinks B L).find? (fun l => l.id == i) = (lastWith i L).or (lastWith i B) := by
  have hperm : (mergeLinks B L).Perm (mapList B L) := perm_sortLinks (mapList B L)
  rw [find?_perm_of_nodup hperm (nodup_ids_merge B L) i]
  exact find?_mapList B L i

/-! ### Claim C4: ids of the merge are the union, without duplicates -/

/-- C4: for every baseline sequence B and local sequence L, the ids of
`merge(B, L)` are exactly the union of the ids of B and of L, and no id
occurs twice in the output. -/
theorem merge_ids_union_nodup (B L : List ShortLink) :
    (ids (mergeLinks B L)).Nodup ∧
      ∀ i : String, i ∈ ids (mergeLinks B L) ↔ i ∈ ids B ∨ i ∈ ids L :=
  ⟨nodup_ids_merge B L, mem_ids_merge B L⟩

/-! ### Claim C1: local-wins on shared ids -/

theorem filter_id_eq_single_of_nodup :
    ∀ {L : List ShortLink} {r : ShortLink}, (ids L).Nodup → r ∈ L →
      L.filter (fun l => l.id == r.id) = [r] := by
  intro L
  induction L with
  | nil => intro r _ hr; exact absurd hr (List.not_mem_nil r)
  | cons a ls ih =>
    intro r h hr
    have h' : a.id ∉ ids ls ∧ (ids ls).Nodup := by
      have : ids (a :: ls) = a.id :: ids ls := rfl
      rw [this] at h
      exact List.nodup_cons.1 h
    rcases List.mem_cons.1 hr with rfl | hrl
    · rw [List.filter_cons, if_pos (by simp)]
      have : ls.filter (fun l => l.id == r.id) = [] := by
        rw [List.filter_eq_nil_iff]
        intro x hx hxr
        exact h'.1 ((eq_of_beq hxr) ▸ List.mem_map.2 ⟨x, hx, rfl⟩)
      rw [this]
    · have hne : (a.id == r.id) = false := by
        simp only [beq_eq_false_iff_ne]
        intro e
        exact h'.1 (e ▸ List.mem_map.2 ⟨r, hrl, rfl⟩)
      rw [List.filter_cons, hne, if_neg (by simp)]
      exact ih h'.2 hrl

theorem lastWith_of_nodup {L : List ShortLink} {r : ShortLink}
    (h : (ids L).Nodup) (hr : r ∈ L) : lastWith r.id L = some r := by
  unfold lastWith
  rw [filter_id_eq_single_of_nodup h hr]
  rfl

/-- C1: for every baseline B and local L whose ids are unique, and every
id present in both, the unique record with that id in `merge(B, L)` is
exactly L's record for that id — every field, `clicks` included, is the
local one; nothing of the baseline version survives. -/
theorem merge_local_wins (B L : List ShortLink) (i : String)
    (hnd : (ids L).Nodup) (_hB : i ∈ ids B) (hL : i ∈ ids L) :
    ∃ r, r ∈ L ∧ r.id = i ∧ r ∈ mergeLinks B L ∧
      ∀ s ∈ mergeLinks B L, s.id = i → s = r := by
  rcases List.mem_map.1 hL with ⟨r, hrL, hri⟩
  have hlast : lastWith i L = some r := hri ▸ lastWith_of_nodup hnd hrL
  have hfind : (mergeLinks B L).find? (fun l => l.id == i) = some r := by
    rw [find?_merge, hlast]
    rfl
  refine ⟨r, hrL, hri, List.mem_of_find?_eq_some hfind, ?_⟩
  intro s hs hsi
  have h1 : (mergeLinks B L).find? (fun l => l.id == s.id) = some s :=
    find?_eq_self_of_nodup (nodup_ids_merge B L) hs
  rw [hsi, hfind] at h1
  exact (Option.some_inj.1 h1).symm

/-! ### Claim C6: deterministic ordering of the merge output -/

theorem insertAll_split (L : List ShortLink) :
    ∀ m : List ShortLink, ∃ P Q, insertAll m L = P ++ Q ∧
      ids P = ids m ∧ ∀ r ∈ Q, r.id ∉ ids m := by
  induction L with
  | nil =>
    intro m
    exact ⟨m, [], (List.append_nil m).symm, rfl, by intro r hr; cases hr⟩
  | cons l ls ih =>
    intro m
    have h1 : insertAll m (l :: ls) = insertAll (mapSet m l) ls := rfl
    by_cases hl : m.any (fun x => x.id == l.id) = true
    · rcases ih (mapSet m l) with ⟨P, Q, hPQ, hP, hQ⟩
      have hids : ids (mapSet m l) = ids m := by rw [ids_mapSet, if_pos hl]
      exact ⟨P, Q, h1 ▸ hPQ, hids ▸ hP, fun r hr => hids ▸ hQ r hr⟩
    · rcases ih (mapSet m l) with ⟨P, Q, hPQ, hP, hQ⟩
      have hany : m.any (fun x => x.id == l.id) = false := by
        cases hv : m.any (fun x => x.id == l.id) with
        | true => exact absurd hv hl
        | false => rfl
      have hids : ids (mapSet m l) = ids m ++ [l.id] := by
        rw [ids_mapSet, if_neg (by simp [hany])]
      have hlen : P.length = m.length + 1 := by
        have e1 : (ids P).length = (ids m ++ [l.id]).length := by rw [hP, hids]
        simpa [ids] using e1
      have hlnot : l.id ∉ ids m := by
        intro hmem
        rcases List.mem_map.1 hmem with ⟨x, hx, hxid⟩
        have := List.any_eq_false.1 hany x hx
        simp [hxid] at this
      refine ⟨P.take m.length, P.drop m.length ++ Q, ?_, ?_, ?_⟩
      · rw [← List.append_assoc, List.take_append_drop]
        exact h1 ▸ hPQ
      · have e2 : ids (P.take m.length) = (ids P).take m.length := by
          unfold ids
          exact List.map_take _ P m.length
        rw [e2, hP, hids]
        have e3 : (ids m).length = m.length := by simp [ids]
        exact List.take_left' e3
      · intro r hr
        rcases List.mem_append.1 hr with hrd | hrQ
        · have e4 : ids (P.drop m.length) = (ids P).drop m.length := by
            unfold ids
            exact List.map_drop _ P m.length
          have hrid : r.id ∈ ids (P.drop m.length) := List.mem_map.2 ⟨r, hrd, rfl⟩
          rw [e4, hP, hids] at hrid
          have e3 : (ids m).length = m.length := by simp [ids]
          rw [List.drop_left' e3] at hrid
          have : r.id = l.id := by simpa using hrid
          exact this ▸ hlnot
        · intro hrm
          exact hQ r hrQ (hids ▸ List.mem_append.2 (Or.inl hrm))

/-- C6: the merge output is sorted descending by `createdAt`; records with
equal `createdAt` keep the order they were inserted into the id-keyed
mapping, and that mapping lists every record with a baseline id before
every record whose id only occurs locally. The output is a function of
the two inputs, hence deterministic. -/
theorem merge_order_deterministic (B L : List ShortLink) :
    (mergeLinks B L).Pairwise (fun a b => b.createdAt ≤ a.createdAt) ∧
      (∀ t : Int, (mergeLinks B L).filter (fun l => l.createdAt == t) =
        (mapList B L).filter (fun l => l.createdAt == t)) ∧
      ∃ P Q, mapList B L = P ++ Q ∧ (∀ r ∈ P, r.id ∈ ids B) ∧
        ∀ r ∈ Q, r.id ∉ ids B := by
  refine ⟨sorted_sortLinks (mapList B L), fun t => filter_sortLinks t (mapList B L), ?_⟩
  rcases insertAll_split L (insertAll [] B) with ⟨P, Q, hPQ, hP, hQ⟩
  refine ⟨P, Q, hPQ, ?_, ?_⟩
  · intro r hr
    have hrid : r.id ∈ ids P := List.mem_map.2 ⟨r, hr, rfl⟩
    rw [hP] at hrid
    rcases (mem_ids_insertAll B [] r.id).1 hrid with h0 | hB
    · cases h0
    · exact hB
  · intro r hr hrB
    exact hQ r hr ((mem_ids_insertAll B [] r.id).2 (Or.inr hrB))

/-! ### Claim C7: idempotence of the merge once local dominates -/

theorem insertAll_fresh (M : List ShortLink) :
    ∀ m : List ShortLink, (ids M).Nodup → (∀ r ∈ M, r.id ∉ ids m) →
      insertAll m M = m ++ M := by
  induction M with
  | nil => intro m _ _; exact (List.append_nil m).symm
  | cons r rest ih =>
    intro m hnd hfresh
    have h' : r.id ∉ ids rest ∧ (ids rest).Nodup := by
      have e : ids (r :: rest) = r.id :: ids rest := rfl
      rw [e] at hnd
      exact List.nodup_cons.1 hnd
    have hany : m.any (fun x => x.id == r.id) = false := by
      rw [List.any_eq_false]
      intro x hx
      simp only [Bool.not_eq_true, beq_eq_false_iff_ne]
      intro e
      exact hfresh r (List.mem_cons_self r rest) (e ▸ List.mem_map.2 ⟨x, hx, rfl⟩)
    have hset : mapSet m r = m ++ [r] := by
      unfold mapSet
      rw [if_neg (by simp [hany])]
    have h1 : insertAll m (r :: rest) = insertAll (mapSet m r) rest := rfl
    rw [h1, hset, ih (m ++ [r]) h'.2 ?_, List.append_assoc, List.singleton_append]
    intro s hs
    have e : ids (m ++ [r]) = ids m ++ [r.id] := by
      unfold ids
      rw [List.map_append]
      rfl
    rw [e]
    intro hmem
    rcases List.mem_append.1 hmem with hm | hr
    · exact hfresh s (List.mem_cons_of_mem r hs) hm
    · have : s.id = r.id := by simpa using hr
      exact h'.1 (this ▸ List.mem_map.2 ⟨s, hs, rfl⟩)

theorem insertAll_override (L : List ShortLink) :
    ∀ m : List ShortLink, (∀ l ∈ L, l.id ∈ ids m) →
      insertAll m L = m.map (fun x => (lastWith x.id L).getD x) := by
  induction L with
  | nil =>
    intro m _
    have : (fun x : ShortLink => (lastWith x.id []).getD x) = fun x => x := rfl
    rw [this, List.map_id']
    rfl
  | cons l ls ih =>
    intro m hsub
    have hany : m.any (fun x => x.id == l.id) = true := by
      rcases List.mem_map.1 (hsub l (List.mem_cons_self l ls)) with ⟨x, hx, hxid⟩
      exact List.any_eq_true.2 ⟨x, hx, by simp [hxid]⟩
    have hset : mapSet m l = m.map (fun x => if x.id == l.id then l else x) := by
      unfold mapSet
      rw [if_pos hany]
    have h1 : insertAll m (l :: ls) = insertAll (mapSet m l) ls := rfl
    have hsub' : ∀ l' ∈ ls, l'.id ∈ ids (mapSet m l) := by
      intro l' hl'
      rw [hset]
      have e : ids (m.map (fun x => if x.id == l.id then l else x)) = ids m :=
        ids_map_replace m l
      rw [e]
      exact hsub l' (List.mem_cons_of_mem l hl')
    rw [h1, ih (mapSet m l) hsub', hset, List.map_map]
    apply List.map_congr_left
    intro a _
    show (lastWith (if a.id == l.id then l else a).id ls).getD
      (if a.id == l.id then l else a) = (lastWith a.id (l :: ls)).getD a
    by_cases ha : a.id = l.id
    · rw [if_pos (by simpa using ha), lastWith_cons_eq ha.symm]
      cases hlw : lastWith a.id ls with
      | none =>
        have : lastWith l.id ls = none := ha ▸ hlw
        rw [this]
        rfl
      | some v =>
        have : lastWith l.id ls = some v := ha ▸ hlw
        rw [this]
        rfl
    · rw [if_neg (by simpa using ha), lastWith_cons_ne (fun e => ha e.symm)]

/-- C7: merging the merged result again with the same local sequence is a
no-op: `merge(merge(B, L), L) = merge(B, L)`. -/
theorem merge_idempotent (B L : List ShortLink) :
    mergeLinks (mergeLinks B L) L = mergeLinks B L := by
  set M := mergeLinks B L with hM
  have hfresh : insertAll [] M = M := by
    have := insertAll_fresh M [] (nodup_ids_merge B L) (by intro r _; simp [ids])
    simpa using this
  have hsub : ∀ l ∈ L, l.id ∈ ids M := by
    intro l hl
    exact (mem_ids_merge B L l.id).2 (Or.inr (List.mem_map.2 ⟨l, hl, rfl⟩))
  have hover : insertAll M L = M.map (fun x => (lastWith x.id L).getD x) :=
    insertAll_override L M hsub
  have hmap : M.map (fun x => (lastWith x.id L).getD x) = M := by
    have hid : ∀ x ∈ M, (lastWith x.id L).getD x = x := by
      intro x hx
      cases hlw : lastWith x.id L with
      | none => rfl
      | some r =>
        have h1 : M.find? (fun l => l.id == x.id) = some x :=
          find?_eq_self_of_nodup (nodup_ids_merge B L) hx
        have h2 : M.find? (fun l => l.id == x.id) = some r := by
          rw [hM, find?_merge, hlw]
          rfl
        rw [h1] at h2
        have : x = r := Option.some_inj.1 h2
        rw [← this]
        rfl
    calc M.map (fun x => (lastWith x.id L).getD x) = M.map (fun x => x) :=
          List.map_congr_left hid
      _ = M := List.map_id' M
  have hmapList : mapList M L = M := by
    unfold mapList
    rw [hfresh, hover, hmap]
  show sortLinks (mapList M L) = M
  rw [hmapList]
  exact sortLinks_eq_of_sorted M (hM ▸ sorted_sortLinks (mapList B L))

/-! ### Claim C8: click counting -/

theorem inc_cons_eq {a : ShortLink} {rest : List ShortLink} {j : String}
    (h : a.id = j) :
    incrementClicks (a :: rest) j = { a with clicks := a.clicks + 1 } :: rest := by
  unfold incrementClicks
  rw [List.find?_cons]
  have h1 : (a.id == j) = true := by simpa using h
  rw [h1]
  show saveLink (a :: rest) { a with clicks := a.clicks + 1 } = _
  unfold saveLink
  rw [List.findIdx?_cons]
  have h2 : (a.id == ({ a with clicks := a.clicks + 1 } : ShortLink).id) = true := by simp
  rw [h2, if_pos rfl]
  rfl

theorem inc_cons_ne {a : ShortLink} {rest : List ShortLink} {j : String}
    (h : a.id ≠ j) :
    incrementClicks (a :: rest) j = a :: incrementClicks rest j := by
  unfold incrementClicks
  rw [List.find?_cons]
  have h1 : (a.id == j) = false := by simpa using h
  rw [h1]
  cases hf : rest.find? (fun l => l.id == j) with
  | none => rfl
  | some link =>
    have hlj : link.id = j := by simpa using List.find?_some hf
    show saveLink (a :: rest) { link with clicks := link.clicks + 1 } =
      a :: saveLink rest { link with clicks := link.clicks + 1 }
    unfold saveLink
    rw [List.findIdx?_cons]
    have h2 : (a.id == ({ link with clicks := link.clicks + 1 } : ShortLink).id) = false := by
      show (a.id == link.id) = false
      simp only [beq_eq_false_iff_ne]
      exact fun e => h (e.trans hlj)
    rw [h2, if_neg (by simp), List.findIdx?_succ]
    cases hidx : rest.findIdx? (fun l => l.id == ({ link with clicks := link.clicks + 1 } : ShortLink).id) with
    | none =>
      have hall := List.findIdx?_eq_none_iff.1 hidx
      have hmem : link ∈ rest := List.mem_of_find?_eq_some hf
      have := hall link hmem
      simp at this
    | some n =>
      show (a :: rest).set (n + 1) _ = _
      rw [List.set_cons_succ]

theorem find?_inc (s : List ShortLink) (j k : String) :
    (incrementClicks s j).find? (fun l => l.id == k) =
      if k = j then
        (s.find? (fun l => l.id == j)).map (fun r => { r with clicks := r.clicks + 1 })
      else s.find? (fun l => l.id == k) := by
  induction s with
  | nil =>
    have h0 : incrementClicks [] j = [] := rfl
    rw [h0]
    by_cases hk : k = j
    · rw [if_pos hk]
      rfl
    · rw [if_neg hk]
  | cons a rest ih =>
    by_cases ha : a.id = j
    · rw [inc_cons_eq ha]
      by_cases hk : k = j
      · rw [if_pos hk, List.find?_cons, List.find?_cons]
        have h1 : (a.id == j) = true := by simpa using ha
        have h2 : (({ a with clicks := a.clicks + 1 } : ShortLink).id == k) = true := by
          show (a.id == k) = true
          simp [ha, hk]
        rw [h2, h1]
        rfl
      · rw [if_neg hk, List.find?_cons, List.find?_cons]
        have h1 : (a.id == k) = false := by
          simp only [beq_eq_false_iff_ne]
          exact fun e => hk (e.symm.trans ha)
        have h2 : (({ a with clicks := a.clicks + 1 } : ShortLink).id == k) = false := h1
        rw [h2]
    · rw [inc_cons_ne ha]
      by_cases hk : k = j
      · rw [if_pos hk, List.find?_cons, List.find?_cons]
        have h1 : (a.id == k) = false := by
          simp only [beq_eq_false_iff_ne]
          exact fun e => ha (e.trans hk)
        have h1' : (a.id == j) = false := by simpa using ha
        rw [h1, h1']
        show (incrementClicks rest j).find? (fun l => l.id == k) = _
        rw [ih, if_pos hk]
      · rw [if_neg hk, List.find?_cons, List.find?_cons]
        by_cases hak : a.id = k
        · have h1 : (a.id == k) = true := by simpa using hak
          rw [h1]
        · have h1 : (a.id == k) = false := by simpa using hak
          rw [h1]
          show (incrementClicks rest j).find? (fun l => l.id == k) = _
          rw [ih, if_neg hk]

theorem find?_foldl_inc (ops : List String) :
    ∀ (s : List ShortLink) (i : String),
      (ops.foldl incrementClicks s).find? (fun l => l.id == i) =
        (s.find? (fun l => l.id == i)).map
          (fun r => { r with clicks := r.clicks + ops.count i }) := by
  induction ops with
  | nil =>
    intro s i
    rw [List.foldl_nil, List.count_nil]
    cases s.find? (fun l => l.id == i) with
    | none => rfl
    | some r => simp
  | cons j ops ih =>
    intro s i
    have h1 : (j :: ops).foldl incrementClicks s = ops.foldl incrementClicks (incrementClicks s j) :=
      List.foldl_cons ops s
    rw [h1, ih, find?_inc]
    by_cases hij : i = j
    · subst hij
      rw [if_pos rfl]
      have hcnt : (i :: ops).count i = ops.count i + 1 := by simp [List.count_cons]
      rw [hcnt]
      cases hf : s.find? (fun l => l.id == i) with
      | none => rfl
      | some r =>
        cases r
        simp only [Option.map_some', Option.some.injEq, ShortLink.mk.injEq,
          true_and, and_true]
        omega
    · rw [if_neg hij]
      have hcnt : (j :: ops).count i = ops.count i := by
        rw [List.count_cons]
        have hji : (j == i) = false := by
          simp only [beq_eq_false_iff_ne]
          exact fun e => hij e.symm
        rw [hji]
        simp
      rw [hcnt]

/-- C8: `incrementClicks(id)` is a no-op on a store holding no record with
that id; and over any sequence of calls, the record found for an id has
its `clicks` increased by exactly the number of calls for that id, all
other fields untouched — interleaved calls for unrelated ids do not
affect it. -/
theorem incrementClicks_spec :
    (∀ (s : List ShortLink) (i : String),
        s.find? (fun l => l.id == i) = none → incrementClicks s i = s) ∧
      ∀ (s : List ShortLink) (ops : List String) (i : String),
        (ops.foldl incrementClicks s).find? (fun l => l.id == i) =
          (s.find? (fun l => l.id == i)).map
            (fun r => { r with clicks := r.clicks + ops.count i }) := by
  constructor
  · intro s i h
    unfold incrementClicks
    rw [h]
  · intro s ops i
    exact find?_foldl_inc ops s i

/-! ### Claim C9: reads degrade to empty defaults -/

/-- C9: for any persisted contents, a links read whose decode fails (key
absent, empty string, or `JSON.parse` throwing) returns the empty
collection, and a settings read likewise returns the empty settings
object; neither propagates a fault (both are total Lean functions). -/
theorem load_failure_defaults
    (pL : String → Option (List ShortLink)) (pS : String → Option AppSettings)
    (rawL rawS : Option String) :
    ((rawL = none ∨ rawL = some "" ∨ ∃ s, rawL = some s ∧ pL s = none) →
        getLinks pL rawL = []) ∧
      ((rawS = none ∨ rawS = some "" ∨ ∃ s, rawS = some s ∧ pS s = none) →
        getSettings pS rawS = emptySettings) := by
  constructor
  · rintro (rfl | rfl | ⟨s, rfl, hp⟩)
    · rfl
    · rfl
    · show (if s = "" then [] else (pL s).getD []) = []
      by_cases hs : s = ""
      · rw [if_pos hs]
      · rw [if_neg hs, hp]
        rfl
  · rintro (rfl | rfl | ⟨s, rfl, hp⟩)
    · rfl
    · rfl
    · show (if s = "" then emptySettings else (pS s).getD emptySettings) = emptySettings
      by_cases hs : s = ""
      · rw [if_pos hs]
      · rw [if_neg hs, hp]
        rfl

/-! ### Claims C2, C3, C5: the bootstrap routing -/

/-- C2: when the fragment is non-empty, decodes, and no record of the
merged snapshot has the decoded slug, the sequencer ends in `NOT_FOUND`,
not in `DASHBOARD`. -/
theorem init_no_match_not_found (decode : String → Option String)
    (store : List ShortLink) (baseline : Option (List ShortLink))
    (rawHash hash : String) (h1 : rawHash ≠ "") (h2 : decode rawHash = some hash)
    (h3 : ∀ r ∈ mergedView store baseline, r.slug ≠ hash) :
    (initApp decode store baseline rawHash).mode = AppMode.NOT_FOUND ∧
      (initApp decode store baseline rawHash).mode ≠ AppMode.DASHBOARD := by
  have hfind : (mergedView store baseline).find? (fun l => l.slug == hash) = none := by
    rw [List.find?_eq_none]
    intro r hr
    simpa using h3 r hr
  have hmode : (initApp decode store baseline rawHash).mode = AppMode.NOT_FOUND := by
    unfold initApp
    rw [if_neg h1]
    simp only [h2]
    rw [hfind]
  exact ⟨hmode, fun hc => by rw [hmode] at hc; cases hc⟩

/-- C3 (amended): a non-empty fragment whose percent-decoding fails
(`decodeURIComponent` throws) leaves the sequencer stuck in `BOOTSTRAP`
— the rejection of the async init aborts the routing — so it never
reaches `DASHBOARD` (and, contrary to the original claim, never reaches
`NOT_FOUND` either). -/
theorem init_decode_fail_bootstrap (decode : String → Option String)
    (store : List ShortLink) (baseline : Option (List ShortLink)) (rawHash : String)
    (h1 : rawHash ≠ "") (h2 : decode rawHash = none) :
    (initApp decode store baseline rawHash).mode = AppMode.BOOTSTRAP ∧
      (initApp decode store baseline rawHash).mode ≠ AppMode.DASHBOARD := by
  have hmode : (initApp decode store baseline rawHash).mode = AppMode.BOOTSTRAP := by
    unfold initApp
    rw [if_neg h1]
    simp only [h2]
  exact ⟨hmode, fun hc => by rw [hmode] at hc; cases hc⟩

/-- C3 (counterexample): at the concrete malformed fragment `"%"` —
non-empty, and `decodeURIComponent("%")` throws, modelled by
`pctDecode "%" = none` — the run ends in `BOOTSTRAP`, not in the
`NOT_FOUND` state the claim asserts. -/
theorem init_decode_fail_not_notfound :
    pctDecode "%" = none ∧ ("%" : String) ≠ "" ∧
      (initApp pctDecode [] none "%").mode = AppMode.BOOTSTRAP ∧
      ¬(initApp pctDecode [] none "%").mode = AppMode.NOT_FOUND := by
  refine ⟨by decide, by decide, by decide, by decide⟩

theorem find?_eq_some_split {p : ShortLink → Bool} :
    ∀ {l : List ShortLink} {a : ShortLink}, l.find? p = some a →
      ∃ pre post, l = pre ++ a :: post ∧ ∀ x ∈ pre, p x = false := by
  intro l
  induction l with
  | nil => intro a h; cases h
  | cons b l ih =>
    intro a h
    rw [List.find?_cons] at h
    cases hb : p b with
    | true =>
      rw [hb] at h
      obtain rfl : b = a := Option.some_inj.1 h
      exact ⟨[], l, rfl, fun x hx => absurd hx (List.not_mem_nil x)⟩
    | false =>
      rw [hb] at h
      rcases ih h with ⟨pre, post, hsplit, hpre⟩
      refine ⟨b :: pre, post, by rw [hsplit]; rfl, ?_⟩
      intro x hx
      rcases List.mem_cons.1 hx with rfl | hxp
      · exact hb
      · exact hpre x hxp

/-- C5: for a non-empty fragment, resolution percent-decodes first, then
matches the decoded value against `slug` by exact (hence case-sensitive)
string equality; with several records sharing the slug it uses the first
match in snapshot order — entering `REDIRECT_PROCESS` with that record,
never an error — and with no match it enters `NOT_FOUND`. -/
theorem resolve_decode_then_first_match (decode : String → Option String)
    (store : List ShortLink) (baseline : Option (List ShortLink))
    (rawHash hash : String) (h1 : rawHash ≠ "") (h2 : decode rawHash = some hash) :
    (∀ m, (mergedView store baseline).find? (fun l => l.slug == hash) = some m →
        (initApp decode store baseline rawHash).mode = AppMode.REDIRECT_PROCESS ∧
        (initApp decode store baseline rawHash).redirectData =
          some (m.originalUrl, m.slug) ∧
        m.slug = hash ∧
        ∃ pre post, mergedView store baseline = pre ++ m :: post ∧
          ∀ r ∈ pre, r.slug ≠ hash) ∧
      ((mergedView store baseline).find? (fun l => l.slug == hash) = none →
        (initApp decode store baseline rawHash).mode = AppMode.NOT_FOUND) := by
  constructor
  · intro m hm
    have hslug : m.slug = hash := by simpa using List.find?_some hm
    rcases find?_eq_some_split hm with ⟨pre, post, hsplit, hpre⟩
    refine ⟨?_, ?_, hslug, pre, post, hsplit, ?_⟩
    · unfold initApp
      rw [if_neg h1]
      simp only [h2]
      rw [hm]
    · unfold initApp
      rw [if_neg h1]
      simp only [h2]
      rw [hm]
    · intro r hr e
      have hfalse := hpre r hr
      rw [e] at hfalse
      simp at hfalse
  · intro hnone
    unfold initApp
    rw [if_neg h1]
    simp only [h2]
    rw [hnone]

/-! ### Claim C10: the in-session refresh never removes a record -/

theorem refreshLinks_eq (prev X : List ShortLink) :
    refreshLinks prev X = mergeLinks prev X := rfl

/-- C10: every id present in the previous view survives `refreshLinks`
against any local store; in particular, after `deleteLink(id)` followed
by `refreshLinks`, a previously displayed record is still in the view. -/
theorem refresh_never_removes (prev store : List ShortLink) (i : String)
    (h : i ∈ ids prev) :
    i ∈ ids (refreshLinks prev store) ∧
      i ∈ ids (refreshLinks prev (deleteLink store i)) := by
  constructor
  · rw [refreshLinks_eq]
    exact (mem_ids_merge prev store i).2 (Or.inl h)
  · rw [refreshLinks_eq]
    exact (mem_ids_merge prev (deleteLink store i) i).2 (Or.inl h)

/-! ### Witnesses -/

/-- C1 (witness): spec Scenario B — baseline clicks 0, local clicks 5,
shared id "1"; the merged record is the local one. -/
theorem merge_local_wins_witness :
    ∃ r, r ∈ [(⟨"1", "abc", "https://x.com", none, 100, 5, none⟩ : ShortLink)] ∧
      r.id = "1" ∧
      r ∈ mergeLinks [(⟨"1", "abc", "https://x.com", none, 100, 0, none⟩ : ShortLink)]
        [(⟨"1", "abc", "https://x.com", none, 100, 5, none⟩ : ShortLink)] ∧
      ∀ s ∈ mergeLinks [(⟨"1", "abc", "https://x.com", none, 100, 0, none⟩ : ShortLink)]
        [(⟨"1", "abc", "https://x.com", none, 100, 5, none⟩ : ShortLink)],
        s.id = "1" → s = r :=
  merge_local_wins
    [(⟨"1", "abc", "https://x.com", none, 100, 0, none⟩ : ShortLink)]
    [(⟨"1", "abc", "https://x.com", none, 100, 5, none⟩ : ShortLink)]
    "1" (by decide) (by decide) (by decide)

/-- C2 (witness): spec Scenario D — fragment `"zzz"` matches no slug in
the snapshot built from a one-record baseline; the run ends `NOT_FOUND`. -/
theorem init_no_match_not_found_witness :
    (initApp pctDecode []
        (some [(⟨"1", "abc", "https://x.com", none, 100, 0, none⟩ : ShortLink)])
        "zzz").mode = AppMode.NOT_FOUND ∧
      (initApp pctDecode []
        (some [(⟨"1", "abc", "https://x.com", none, 100, 0, none⟩ : ShortLink)])
        "zzz").mode ≠ AppMode.DASHBOARD :=
  init_no_match_not_found pctDecode []
    (some [(⟨"1", "abc", "https://x.com", none, 100, 0, none⟩ : ShortLink)])
    "zzz" "zzz" (by decide) (by decide) (by decide)

/-- C3 (witness for the amended claim): the malformed fragment `"%"`
leaves the run in `BOOTSTRAP`, not `DASHBOARD`. -/
theorem init_decode_fail_bootstrap_witness :
    (initApp pctDecode [] none "%").mode = AppMode.BOOTSTRAP ∧
      (initApp pctDecode [] none "%").mode ≠ AppMode.DASHBOARD :=
  init_decode_fail_bootstrap pctDecode [] none "%" (by decide) (by decide)

/-- C5 (witness): two records share slug `"abc"`; resolving `"abc"`
returns the first in snapshot order and enters `REDIRECT_PROCESS`. -/
theorem resolve_decode_then_first_match_witness :
    (initApp pctDecode
        [(⟨"1", "abc", "https://x.com", none, 200, 0, none⟩ : ShortLink),
          (⟨"2", "abc", "https://y.com", none, 100, 0, none⟩ : ShortLink)]
        none "abc").mode = AppMode.REDIRECT_PROCESS ∧
      (initApp pctDecode
        [(⟨"1", "abc", "https://x.com", none, 200, 0, none⟩ : ShortLink),
          (⟨"2", "abc", "https://y.com", none, 100, 0, none⟩ : ShortLink)]
        none "abc").redirectData =
        some ((⟨"1", "abc", "https://x.com", none, 200, 0, none⟩ : ShortLink).originalUrl,
          (⟨"1", "abc", "https://x.com", none, 200, 0, none⟩ : ShortLink).slug) ∧
      (⟨"1", "abc", "https://x.com", none, 200, 0, none⟩ : ShortLink).slug = "abc" ∧
      ∃ pre post,
        mergedView
          [(⟨"1", "abc", "https://x.com", none, 200, 0, none⟩ : ShortLink),
            (⟨"2", "abc", "https://y.com", none, 100, 0, none⟩ : ShortLink)] none =
          pre ++ (⟨"1", "abc", "https://x.com", none, 200, 0, none⟩ : ShortLink) :: post ∧
        ∀ r ∈ pre, r.slug ≠ "abc" :=
  (resolve_decode_then_first_match pctDecode
      [(⟨"1", "abc", "https://x.com", none, 200, 0, none⟩ : ShortLink),
        (⟨"2", "abc", "https://y.com", none, 100, 0, none⟩ : ShortLink)]
      none "abc" "abc" (by decide) (by decide)).1
    (⟨"1", "abc", "https://x.com", none, 200, 0, none⟩ : ShortLink) (by decide)

/-- C8 (witness): the no-op case on the empty store, and three calls
(two for id "1", one interleaved for "2") adding exactly 2 clicks to
record "1". -/
theorem incrementClicks_spec_witness :
    incrementClicks ([] : List ShortLink) "x" = [] ∧
      ((["1", "2", "1"].foldl incrementClicks
          [(⟨"1", "abc", "https://x.com", none, 100, 0, none⟩ : ShortLink)]).find?
          (fun l => l.id == "1") =
        ([(⟨"1", "abc", "https://x.com", none, 100, 0, none⟩ : ShortLink)].find?
          (fun l => l.id == "1")).map
          (fun r => { r with clicks := r.clicks + (["1", "2", "1"] : List String).count "1" })) :=
  ⟨incrementClicks_spec.1 [] "x" rfl,
    incrementClicks_spec.2
      [(⟨"1", "abc", "https://x.com", none, 100, 0, none⟩ : ShortLink)]
      ["1", "2", "1"] "1"⟩

/-- C9 (witness): an unparsable stored string yields the empty
collection, and an absent settings key yields the empty settings. -/
theorem load_failure_defaults_witness :
    getLinks (fun _ => none) (some "junk") = [] ∧
      getSettings (fun _ => none) none = emptySettings :=
  ⟨(load_failure_defaults (fun _ => none) (fun _ => none) (some "junk") none).1
      (Or.inr (Or.inr ⟨"junk", rfl, rfl⟩)),
    (load_failure_defaults (fun _ => none) (fun _ => none) (some "junk") none).2
      (Or.inl rfl)⟩

/-- C10 (witness): id "1" is displayed, then deleted locally; it is
still in the refreshed view. -/
theorem refresh_never_removes_witness :
    "1" ∈ ids (refreshLinks
        [(⟨"1", "abc", "https://x.com", none, 100, 0, none⟩ : ShortLink)]
        [(⟨"1", "abc", "https://x.com", none, 100, 0, none⟩ : ShortLink)]) ∧
      "1" ∈ ids (refreshLinks
        [(⟨"1", "abc", "https://x.com", none, 100, 0, none⟩ : ShortLink)]
        (deleteLink [(⟨"1", "abc", "https://x.com", none, 100, 0, none⟩ : ShortLink)] "1")) :=
  refresh_never_removes
    [(⟨"1", "abc", "https://x.com", none, 100, 0, none⟩ : ShortLink)]
    [(⟨"1", "abc", "https://x.com", none, 100, 0, none⟩ : ShortLink)]
    "1" (by decide)

end MacShorty
